import Mathlib

/-!
Verification of the weekly-plan target allocation engine of the
hebrewTrainer repository (`src/app.py`).

The development shallowly embeds the three core functions:

* `_plan_targets` (app.py lines 118-127): fold over a week's structure
  blocks, resolving each block label through the `LABEL_TO_MODE` table
  (after lowercasing) and parsing the leading integer of the `time`
  annotation via `re.match(r'(\d+)', ...)`; parsed minutes accumulate
  per resolved mode in a dict.
* `_user_targets` (app.py lines 130-163): applies the user's
  `daily_minutes` / `siddur_minutes` overrides to the nominal targets.
* `get_current_week_info` (app.py lines 1133-1165): computes the current
  week index from the earliest session date and buckets the session
  history per week.

Modelling choices:

* Python dicts keyed by drill mode become functions `Mode → Option Nat`
  (`none` = key absent).  All properties verified here concern dict
  contents, never iteration order.
* Calendar dates become `Int` ordinals (whole days); Python's
  `(a - b).days` on dates is the ordinal difference, and Python's `//`
  is floor division, i.e. `Int.fdiv`.
* Python's builtin `round` is round-half-to-even.  The source rounds
  `mins / ns_total * remaining` where all three operands are
  non-negative integers; this is modelled exactly as round-half-to-even
  of the rational `(mins * remaining) / ns_total` (`roundHalfEven`).
* Python's `re.match(r'(\d+)', s)` anchors at position 0 and does not
  strip whitespace; digits are modelled as ASCII `0`-`9`.
-/

/-- Drill modes, from `DRILL_META` in app.py.  `siddur` is the anchor mode. -/
inductive Mode where
  | consonants
  | letters
  | vowelfire
  | words
  | phrases
  | prayer
  | siddur
deriving DecidableEq, Fintype

/-- A per-mode minutes dict: `none` means the mode is absent from the dict. -/
abbrev Targets := Mode → Option Nat

/-- A time-block of a week definition: the free-text duration annotation
(`block["time"]`) and the free-text label (`block["label"]`). -/
structure Block where
  time : String
  label : String
deriving DecidableEq

/-- The `LABEL_TO_MODE` table of app.py (lines 102-116), as an association
list with lowercase keys. -/
def LABEL_TO_MODE : List (String × Mode) :=
  [("rapid-fire consonants", .consonants),
   ("vowel drills", .letters),
   ("rapid-fire vowels", .vowelfire),
   ("rapid-fire vowels (warm-up)", .vowelfire),
   ("warm-up", .vowelfire),
   ("final warm-up", .vowelfire),
   ("word reading", .words),
   ("phrase flow", .phrases),
   ("phrase flow (projection)", .phrases),
   ("prayer simulation", .prayer),
   ("siddur reading", .siddur),
   ("siddur reading (4×/week)", .siddur),
   ("fast siddur (2×/week)", .siddur)]

/-- `LABEL_TO_MODE.get(block["label"].lower())` of app.py line 122. -/
def labelMode (lbl : String) : Option Mode :=
  LABEL_TO_MODE.lookup lbl.toLower

/-- Decimal value of a digit run, as computed by Python's `int`. -/
def natFromDigits (ds : List Char) : Nat :=
  ds.foldl (fun n c => 10 * n + (c.toNat - 48)) 0

/-- Model of `re.match(r'(\d+)', s)` followed by `int(m.group(1))`
(app.py lines 124-126): the run of digits at position 0 of `s`, or `none`
when `s` does not begin with a digit.  No whitespace is stripped. -/
def matchLeadingInt (s : String) : Option Nat :=
  let ds := s.toList.takeWhile Char.isDigit
  if ds.isEmpty then none else some (natFromDigits ds)

/-- Modelled from the spec: the Duration Parser as the spec describes it,
returning the leading decimal integer of the annotation "after trimming"
the text (whitespace removed from both ends).  This is the spec-side
contract, to be compared with the code's `matchLeadingInt`, which does
not trim. -/
def durationParserSpec (s : String) : Option Nat :=
  let trimmed :=
    ((s.toList.dropWhile Char.isWhitespace).reverse.dropWhile Char.isWhitespace).reverse
  let ds := trimmed.takeWhile Char.isDigit
  if ds.isEmpty then none else some (natFromDigits ds)

/-- One iteration of the block loop in `_plan_targets` (app.py lines
121-126): `targets[mode] = targets.get(mode, 0) + int(m.group(1))` when
the label resolves and the duration parses, otherwise no change. -/
def planStep (targets : Targets) (block : Block) : Targets :=
  match labelMode block.label with
  | some mode =>
    match matchLeadingInt block.time with
    | some v => fun m => if m = mode then some ((targets mode).getD 0 + v) else targets m
    | none => targets
  | none => targets

/-- `_plan_targets` of app.py (lines 118-127): nominal per-mode minutes of
a week, starting from the empty dict. -/
def _plan_targets (blocks : List Block) : Targets :=
  blocks.foldl planStep (fun _ => none)

/-- Sum of the values of the non-siddur entries of a targets dict
(`sum(non_siddur.values())` in app.py line 151); absent modes contribute 0. -/
def nsTotalRaw (base : Targets) : Nat :=
  ((base .consonants).getD 0) + ((base .letters).getD 0) + ((base .vowelfire).getD 0) +
    ((base .words).getD 0) + ((base .phrases).getD 0) + ((base .prayer).getD 0)

/-- Round-half-to-even of the non-negative rational `num / den`; this is
Python's builtin `round` on the exact quotient. -/
def roundHalfEven (num den : Nat) : Nat :=
  let q := num / den
  let r := num % den
  if 2 * r < den then q
  else if den < 2 * r then q + 1
  else if q % 2 = 0 then q else q + 1

/-- `siddur_mins = max(siddur_pref, base.get('siddur', 0))` of app.py line 149. -/
def anchorMinutes (base : Targets) (siddur_pref : Nat) : Nat :=
  max siddur_pref ((base .siddur).getD 0)

/-- `ns_total = sum(non_siddur.values()) or 1` of app.py line 151. -/
def nsTotal (base : Targets) : Nat :=
  if nsTotalRaw base = 0 then 1 else nsTotalRaw base

/-- The `remaining` budget of app.py lines 153-156: `max(0, daily - siddur_mins)`
when a daily total is set (truncated `Nat` subtraction), else `ns_total`. -/
def remainingMinutes (base : Targets) (daily siddur_pref : Nat) : Nat :=
  if 0 < daily then daily - anchorMinutes base siddur_pref else nsTotal base

/-- `_user_targets` of app.py (lines 130-163), with the nominal dict (the
`base = _plan_targets(week_plan)` of line 141) passed in directly and the
two user preferences as naturals (the `or 0` of lines 142-143 already
applied).  The siddur entry is present iff `siddur_mins > 0` (line 159);
every non-siddur entry of `base` is rewritten to
`max(1, round(mins / ns_total * remaining))` (line 162). -/
def _user_targets (base : Targets) (daily siddur_pref : Nat) : Targets :=
  if daily = 0 ∧ siddur_pref = 0 then base
  else fun m =>
    match m with
    | .siddur =>
        if 0 < anchorMinutes base siddur_pref then some (anchorMinutes base siddur_pref)
        else none
    | _ => (base m).map (fun mins =>
        max 1 (roundHalfEven (mins * remainingMinutes base daily siddur_pref) (nsTotal base)))

/-- A practice session as read by the Week Resolver: its local calendar
date (as a day ordinal) and its minutes.  The mode field of the record is
unused by `get_current_week_info`. -/
structure Session where
  date : Int
  minutes : Nat
deriving DecidableEq

/-- The week bucket of a date: `min(plan_weeks, (d - start).days // 7 + 1)`
(app.py lines 1147 and 1157); Python `//` is floor division. -/
def weekOfDate (plan_weeks : Nat) (start d : Int) : Int :=
  min (plan_weeks : Int) ((d - start).fdiv 7 + 1)

/-- One iteration of the history loop of app.py lines 1156-1161: place the
session in its week bucket, adding its date to the bucket's date set
(modelled as an accumulated duplicate-free list) and its minutes to the
bucket's minute total. -/
def weekStep (N : Nat) (start : Int) (wd : Int → Option (List Int × Nat))
    (s : Session) : Int → Option (List Int × Nat) :=
  let wk := weekOfDate N start s.date
  let p := (wd wk).getD ([], 0)
  fun w =>
    if w = wk then some (if s.date ∈ p.1 then p.1 else s.date :: p.1, p.2 + s.minutes)
    else wd w

/-- The `week_data` dict before the final `len(...)` pass (app.py lines
1154-1161): per week bucket, the set of session dates and the minute sum. -/
def weekDataRaw (N : Nat) (start : Int) (sessions : List Session) :
    Int → Option (List Int × Nat) :=
  sessions.foldl (weekStep N start) (fun _ => none)

/-- `get_current_week_info` of app.py (lines 1133-1165): current week
number, start date, and the per-week `(distinct days, total minutes)`
aggregate.  The earliest session (`order_by(date.asc()).first()`) is the
minimum session date; with no sessions the current week is 1, there is no
start date and the aggregate dict stays empty. -/
def get_current_week_info (plan_weeks : Nat) (today : Int) (sessions : List Session) :
    Int × Option Int × (Int → Option (Nat × Nat)) :=
  match (sessions.map Session.date).min? with
  | some start =>
      (min (plan_weeks : Int) ((today - start).fdiv 7 + 1), some start,
       fun w => (weekDataRaw plan_weeks start sessions w).map (fun p => (p.1.length, p.2)))
  | none => (1, none, fun _ => none)

/-- Concrete nominal dict of the spec's compression example:
`{siddur: 15, words: 10, phrases: 10, prayer: 10}`. -/
def exNominal : Targets := fun m =>
  match m with
  | .siddur => some 15
  | .words => some 10
  | .phrases => some 10
  | .prayer => some 10
  | _ => none

/-- Expected redistributor output of the compression example:
`{siddur: 15, words: 2, phrases: 2, prayer: 2}`. -/
def exCompressed : Targets := fun m =>
  match m with
  | .siddur => some 15
  | .words => some 2
  | .phrases => some 2
  | .prayer => some 2
  | _ => none

example : _user_targets exNominal 20 0 = exCompressed := by decide

lemma min_date_eq (sessions : List Session) (s0 : Session) (h0 : s0 ∈ sessions)
    (hmin : ∀ s ∈ sessions, s0.date ≤ s.date) :
    (sessions.map Session.date).min? = some s0.date := by
  haveI : Std.Antisymm ((· ≤ ·) : Int → Int → Prop) :=
    ⟨fun h1 h2 => le_antisymm h1 h2⟩
  rw [List.min?_eq_some_iff (fun a => le_refl a) (fun a b => min_choice a b)
      (fun _ _ _ => le_min_iff)]
  refine ⟨List.mem_map_of_mem Session.date h0, ?_⟩
  intro b hb
  obtain ⟨s, hs, rfl⟩ := List.mem_map.mp hb
  exact hmin s hs

lemma gcwi_eq (N : Nat) (today : Int) (sessions : List Session) (s0 : Session)
    (h0 : s0 ∈ sessions) (hmin : ∀ s ∈ sessions, s0.date ≤ s.date) :
    get_current_week_info N today sessions
      = (min (N : Int) ((today - s0.date).fdiv 7 + 1), some s0.date,
         fun w => (weekDataRaw N s0.date sessions w).map (fun p => (p.1.length, p.2))) := by
  unfold get_current_week_info
  rw [min_date_eq sessions s0 h0 hmin]

lemma weekDataRaw_support (N : Nat) (start : Int) :
    ∀ (sessions : List Session) (acc : Int → Option (List Int × Nat)) (w : Int),
      (sessions.foldl (weekStep N start) acc) w ≠ none →
      acc w ≠ none ∨ ∃ s ∈ sessions, w = weekOfDate N start s.date := by
  intro sessions
  induction sessions with
  | nil =>
    intro acc w h
    exact Or.inl h
  | cons s rest ih =>
    intro acc w h
    rw [List.foldl_cons] at h
    rcases ih (weekStep N start acc s) w h with h' | ⟨s', hs', hw⟩
    · by_cases hww : w = weekOfDate N start s.date
      · exact Or.inr ⟨s, List.mem_cons_self s rest, hww⟩
      · left
        have hstep : weekStep N start acc s w = acc w := by
          simp only [weekStep]
          rw [if_neg hww]
        rwa [hstep] at h'
    · exact Or.inr ⟨s', List.mem_cons_of_mem s hs', hw⟩

/-- C3: with at least one session, the current week is
`min(N, days_elapsed // 7 + 1)` measured from the earliest session date;
in particular 6 elapsed days give week 1, 7 give week 2, and `7 * N` or
more elapsed days give week N. -/
theorem current_week_formula (N : Nat) (today : Int) (sessions : List Session)
    (s0 : Session) (h0 : s0 ∈ sessions) (hmin : ∀ s ∈ sessions, s0.date ≤ s.date) :
    (get_current_week_info N today sessions).1
        = min (N : Int) ((today - s0.date).fdiv 7 + 1) ∧
    (∀ (M : Nat) (start : Int), 1 ≤ M →
      (get_current_week_info M (start + 6) [⟨start, 5⟩]).1 = 1) ∧
    (∀ (M : Nat) (start : Int), 2 ≤ M →
      (get_current_week_info M (start + 7) [⟨start, 5⟩]).1 = 2) ∧
    (∀ (M : Nat) (start t : Int), 7 * (M : Int) ≤ t - start →
      (get_current_week_info M t [⟨start, 5⟩]).1 = M) := by
  refine ⟨?_, ?_, ?_, ?_⟩
  · rw [gcwi_eq N today sessions s0 h0 hmin]
  · intro M start hM
    show min (M : Int) ((start + 6 - start).fdiv 7 + 1) = 1
    rw [Int.fdiv_eq_ediv _ (by norm_num)]
    omega
  · intro M start hM
    show min (M : Int) ((start + 7 - start).fdiv 7 + 1) = 2
    rw [Int.fdiv_eq_ediv _ (by norm_num)]
    omega
  · intro M start t ht
    show min (M : Int) ((t - start).fdiv 7 + 1) = M
    rw [Int.fdiv_eq_ediv _ (by norm_num)]
    omega

/-- C4 counterexample: a session dated one day after "today" (reachable,
e.g., through the admin date-edit route of app.py line 1601 or a timezone
toggle) drives the current week to 0, outside `[1, N]`. -/
theorem week_index_out_of_range :
    ¬(1 ≤ (get_current_week_info 8 0 [⟨1, 10⟩]).1 ∧
      (get_current_week_info 8 0 [⟨1, 10⟩]).1 ≤ 8) := by decide

/-- C4 amended: provided every session date is on or before today, the
current week index and every key of the per-week history aggregate lie in
`[1, N]` for `N ∈ \x7b8, 12, 16\x7d`. -/
theorem week_index_in_range (N : Nat) (today : Int) (sessions : List Session)
    (hN : N = 8 ∨ N = 12 ∨ N = 16)
    (hdates : ∀ s ∈ sessions, s.date ≤ today) :
    (1 ≤ (get_current_week_info N today sessions).1 ∧
      (get_current_week_info N today sessions).1 ≤ (N : Int)) ∧
    (∀ w : Int, (get_current_week_info N today sessions).2.2 w ≠ none →
      1 ≤ w ∧ w ≤ (N : Int)) := by
  rcases hmin? : (sessions.map Session.date).min? with _ | start
  · have hnil : sessions = [] := by
      have := List.min?_eq_none_iff.mp hmin?
      exact List.map_eq_nil_iff.mp this
    subst hnil
    refine ⟨?_, ?_⟩
    · show 1 ≤ (1 : Int) ∧ (1 : Int) ≤ (N : Int)
      omega
    · intro w hw
      exact absurd rfl hw
  · have hmem : start ∈ sessions.map Session.date :=
      List.min?_mem (fun a b => min_choice a b) hmin?
    have hlb : ∀ b ∈ sessions.map Session.date, start ≤ b := by
      intro b hb
      exact (List.le_min?_iff (fun _ _ _ => le_min_iff) hmin?).mp (le_refl start) b hb
    obtain ⟨sfirst, hsfirst, hdfirst⟩ := List.mem_map.mp hmem
    have hst : start ≤ today := hdfirst ▸ hdates sfirst hsfirst
    constructor
    · show 1 ≤ (get_current_week_info N today sessions).1 ∧ _
      unfold get_current_week_info
      rw [hmin?]
      dsimp only
      rw [Int.fdiv_eq_ediv _ (by norm_num)]
      omega
    · intro w hw
      unfold get_current_week_info at hw
      rw [hmin?] at hw
      dsimp only at hw
      have hraw : (sessions.foldl (weekStep N start) (fun _ => none)) w ≠ none := by
        intro hcon
        unfold weekDataRaw at hw
        rw [hcon] at hw
        exact hw rfl
      rcases weekDataRaw_support N start sessions (fun _ => none) w hraw with h' | ⟨s, hs, rfl⟩
      · exact absurd rfl h'
      · have hsd : start ≤ s.date := hlb s.date (List.mem_map_of_mem Session.date hs)
        unfold weekOfDate
        rw [Int.fdiv_eq_ediv _ (by norm_num)]
        omega
/-- The sessions that fall in week bucket `w`. -/
def sessionsInWeek (N : Nat) (start : Int) (sessions : List Session) (w : Int) :
    List Session :=
  sessions.filter (fun s => weekOfDate N start s.date == w)

/-- Relation between one cell of the history dict and the list of sessions
assigned to that bucket so far: an absent cell means no session yet, a
present cell holds a duplicate-free list of the bucket's session dates and
the bucket's minute sum. -/
def BucketAgg (cell : Option (List Int × Nat)) (l : List Session) : Prop :=
  (cell = none ∧ l = []) ∨
  (∃ days mins, cell = some (days, mins) ∧ l ≠ [] ∧ days.Nodup ∧
    days.toFinset = (l.map Session.date).toFinset ∧ mins = (l.map Session.minutes).sum)

lemma toFinset_dates_append_singleton (l : List Session) (s : Session) :
    (((l ++ [s]).map Session.date).toFinset : Finset Int)
      = insert s.date ((l.map Session.date).toFinset) := by
  ext x
  simp [or_comm]

lemma weekStep_agg (N : Nat) (start : Int) (acc : Int → Option (List Int × Nat))
    (b : Int → List Session) (hacc : ∀ w, BucketAgg (acc w) (b w)) (s : Session) :
    ∀ w, BucketAgg ((weekStep N start acc s) w)
      (b w ++ if weekOfDate N start s.date == w then [s] else []) := by
  intro w
  by_cases hww : w = weekOfDate N start s.date
  · have hbeq : (weekOfDate N start s.date == w) = true := by
      rw [beq_iff_eq]
      exact hww.symm
    have hstep : (weekStep N start acc s) w =
        some (if s.date ∈ ((acc w).getD ([], 0)).1 then ((acc w).getD ([], 0)).1
              else s.date :: ((acc w).getD ([], 0)).1,
              ((acc w).getD ([], 0)).2 + s.minutes) := by
      simp only [weekStep]
      rw [if_pos hww, ← hww]
    rw [hstep, if_pos hbeq]
    rcases hacc w with ⟨hc, hl⟩ | ⟨days, mins, hc, hne, hnd, hfs, hsum⟩
    · rw [hc, hl]
      simp only [Option.getD_none, List.not_mem_nil, if_neg (List.not_mem_nil s.date),
        List.nil_append]
      exact Or.inr ⟨[s.date], 0 + s.minutes, rfl, by simp, by simp, by simp, by simp⟩
    · rw [hc]
      simp only [Option.getD_some]
      by_cases hmem : s.date ∈ days
      · rw [if_pos hmem]
        refine Or.inr ⟨days, mins + s.minutes, rfl, by simp, hnd, ?_, ?_⟩
        · have hsd : s.date ∈ (List.map Session.date (b w)).toFinset := by
            rw [← hfs]
            exact List.mem_toFinset.mpr hmem
          rw [toFinset_dates_append_singleton, hfs]
          exact (Finset.insert_eq_self.mpr hsd).symm
        · rw [hsum]
          simp
      · rw [if_neg hmem]
        refine Or.inr ⟨s.date :: days, mins + s.minutes, rfl, by simp, ?_, ?_, ?_⟩
        · exact List.Nodup.cons hmem hnd
        · rw [toFinset_dates_append_singleton, List.toFinset_cons, hfs]
        · rw [hsum]
          simp
  · have hbeq : (weekOfDate N start s.date == w) = false := by
      rw [beq_eq_false_iff_ne]
      exact fun hcon => hww hcon.symm
    have hstep : (weekStep N start acc s) w = acc w := by
      simp only [weekStep]
      rw [if_neg hww]
    rw [hstep, hbeq]
    simpa using hacc w

lemma foldl_agg (N : Nat) (start : Int) :
    ∀ (sessions : List Session) (acc : Int → Option (List Int × Nat))
      (b : Int → List Session),
      (∀ w, BucketAgg (acc w) (b w)) →
      ∀ w, BucketAgg ((sessions.foldl (weekStep N start) acc) w)
        (b w ++ sessionsInWeek N start sessions w) := by
  intro sessions
  induction sessions with
  | nil =>
    intro acc b hacc w
    simpa [sessionsInWeek] using hacc w
  | cons s rest ih =>
    intro acc b hacc w
    rw [List.foldl_cons]
    have h' := ih (weekStep N start acc s)
      (fun w => b w ++ if weekOfDate N start s.date == w then [s] else [])
      (weekStep_agg N start acc b hacc s) w
    have harr : (b w ++ if weekOfDate N start s.date == w then [s] else []) ++
          sessionsInWeek N start rest w
        = b w ++ sessionsInWeek N start (s :: rest) w := by
      by_cases hc : (weekOfDate N start s.date == w) = true
      · simp [sessionsInWeek, List.filter_cons, hc]
      · simp only [Bool.not_eq_true] at hc
        simp [sessionsInWeek, List.filter_cons, hc]
    rwa [harr] at h'

/-- C7: per week bucket the history aggregate counts distinct session
dates while summing minutes over all sessions of the bucket; in
particular two same-date sessions of 10 and 15 minutes yield the bucket
value `(1, 25)`. -/
theorem history_aggregate_dedup (N : Nat) (today : Int) (sessions : List Session)
    (s0 : Session) (h0 : s0 ∈ sessions) (hmin : ∀ s ∈ sessions, s0.date ≤ s.date) :
    (∀ w : Int,
      (get_current_week_info N today sessions).2.2 w
        = if sessionsInWeek N s0.date sessions w = [] then none
          else some
            (((sessionsInWeek N s0.date sessions w).map Session.date).toFinset.card,
             ((sessionsInWeek N s0.date sessions w).map Session.minutes).sum)) ∧
    (get_current_week_info 8 0 [⟨0, 10⟩, ⟨0, 15⟩]).2.2 1 = some (1, 25) := by
  refine ⟨?_, by decide⟩
  intro w
  rw [gcwi_eq N today sessions s0 h0 hmin]
  dsimp only
  have h := foldl_agg N s0.date sessions (fun _ => none) (fun _ => [])
    (fun _ => Or.inl ⟨rfl, rfl⟩) w
  rw [List.nil_append] at h
  rcases h with ⟨hc, hl⟩ | ⟨days, mins, hc, hne, hnd, hfs, hsum⟩
  · unfold weekDataRaw
    rw [hc, hl]
    simp
  · unfold weekDataRaw
    rw [hc, if_neg hne]
    simp only [Option.map_some']
    have hlen : days.length = ((sessionsInWeek N s0.date sessions w).map
        Session.date).toFinset.card := by
      rw [← List.toFinset_card_of_nodup hnd, hfs]
    rw [hlen, hsum]

/-- The contribution of a block to mode `m`: its parsed leading minutes when
its label resolves to `m` and its duration parses, nothing otherwise. -/
def blockContrib (m : Mode) (b : Block) : Option Nat :=
  match labelMode b.label with
  | some mode => if mode = m then matchLeadingInt b.time else none
  | none => none

lemma plan_foldl_apply (blocks : List Block) :
    ∀ (acc : Targets) (m : Mode),
      (blocks.foldl planStep acc) m =
        if blocks.filterMap (blockContrib m) = [] then acc m
        else some ((acc m).getD 0 + (blocks.filterMap (blockContrib m)).sum) := by
  induction blocks with
  | nil =>
    intro acc m
    simp
  | cons b rest ih =>
    intro acc m
    rw [List.foldl_cons, List.filterMap_cons]
    rcases hres : labelMode b.label with _ | mode
    · have hstep : planStep acc b = acc := by
        unfold planStep
        rw [hres]
      have hcontrib : blockContrib m b = none := by
        unfold blockContrib
        rw [hres]
      rw [hstep, hcontrib, ih acc m]
    · rcases hparse : matchLeadingInt b.time with _ | v
      · have hstep : planStep acc b = acc := by
          unfold planStep
          rw [hres, hparse]
        have hcontrib : blockContrib m b = none := by
          unfold blockContrib
          rw [hres]
          dsimp only
          rw [hparse]
          exact ite_self none
        rw [hstep, hcontrib, ih acc m]
      · by_cases hm : mode = m
        · rw [hm] at hres
          have hcontrib : blockContrib m b = some v := by
            unfold blockContrib
            rw [hres]
            dsimp only
            rw [if_pos rfl, hparse]
          have haccm : (planStep acc b) m = some ((acc m).getD 0 + v) := by
            unfold planStep
            rw [hres, hparse]
            dsimp only
            rw [if_pos rfl]
          rw [hcontrib, ih (planStep acc b) m, haccm]
          rw [if_neg (List.cons_ne_nil v (rest.filterMap (blockContrib m)))]
          simp only [List.sum_cons]
          by_cases hrest : rest.filterMap (blockContrib m) = []
          · rw [if_pos hrest, hrest]
            simp
          · rw [if_neg hrest]
            simp only [Option.getD_some]
            congr 1
            omega
        · have hstep : (planStep acc b) m = acc m := by
            unfold planStep
            rw [hres, hparse]
            dsimp only
            exact if_neg (fun h => hm h.symm)
          have hcontrib : blockContrib m b = none := by
            unfold blockContrib
            rw [hres]
            dsimp only
            exact if_neg hm
          rw [hcontrib, ih (planStep acc b) m, hstep]

lemma plan_targets_apply (blocks : List Block) (m : Mode) :
    _plan_targets blocks m =
      if blocks.filterMap (blockContrib m) = [] then none
      else some ((blocks.filterMap (blockContrib m)).sum) := by
  unfold _plan_targets
  rw [plan_foldl_apply blocks (fun _ => none) m]
  split <;> simp

/-- C8: the Plan Target Calculator is order-independent — permuting a
week's blocks leaves the mode-to-minutes dict unchanged — and blocks
accumulate: each mode's entry is the sum of the parsed minutes of all the
blocks resolving to that mode (present iff at least one block
contributes). -/
theorem plan_targets_perm (blocks blocks' : List Block) (hperm : blocks.Perm blocks') :
    _plan_targets blocks = _plan_targets blocks' ∧
    (∀ m : Mode, _plan_targets blocks m =
      if blocks.filterMap (blockContrib m) = [] then none
      else some ((blocks.filterMap (blockContrib m)).sum)) := by
  refine ⟨?_, fun m => plan_targets_apply blocks m⟩
  funext m
  rw [plan_targets_apply blocks m, plan_targets_apply blocks' m]
  have hp : (blocks.filterMap (blockContrib m)).Perm (blocks'.filterMap (blockContrib m)) :=
    hperm.filterMap (blockContrib m)
  have hsum : (blocks.filterMap (blockContrib m)).sum
      = (blocks'.filterMap (blockContrib m)).sum := hp.sum_eq
  by_cases hnil : blocks.filterMap (blockContrib m) = []
  · have hnil' : blocks'.filterMap (blockContrib m) = [] := by
      rw [hnil] at hp
      exact hp.symm.eq_nil
    rw [if_pos hnil, if_pos hnil']
  · have hnil' : blocks'.filterMap (blockContrib m) ≠ [] := by
      intro hcon
      rw [hcon] at hp
      exact hnil hp.eq_nil
    rw [if_neg hnil, if_neg hnil', hsum]

/-- Sum of all entries of a targets dict (absent modes contribute 0). -/
def targetsTotal (t : Targets) : Nat :=
  ((t .consonants).getD 0) + ((t .letters).getD 0) + ((t .vowelfire).getD 0) +
    ((t .words).getD 0) + ((t .phrases).getD 0) + ((t .prayer).getD 0) +
    ((t .siddur).getD 0)

lemma user_targets_of_override (base : Targets) (daily siddur_pref : Nat)
    (h : ¬(daily = 0 ∧ siddur_pref = 0)) :
    _user_targets base daily siddur_pref = fun m =>
      match m with
      | .siddur =>
          if 0 < anchorMinutes base siddur_pref then some (anchorMinutes base siddur_pref)
          else none
      | _ => (base m).map (fun mins =>
          max 1 (roundHalfEven (mins * remainingMinutes base daily siddur_pref) (nsTotal base))) := by
  unfold _user_targets
  exact if_neg h

lemma user_targets_siddur (base : Targets) (daily siddur_pref : Nat)
    (h : ¬(daily = 0 ∧ siddur_pref = 0)) :
    _user_targets base daily siddur_pref .siddur =
      if 0 < anchorMinutes base siddur_pref then some (anchorMinutes base siddur_pref)
      else none := by
  rw [user_targets_of_override base daily siddur_pref h]

lemma user_targets_nonanchor (base : Targets) (daily siddur_pref : Nat)
    (h : ¬(daily = 0 ∧ siddur_pref = 0)) (m : Mode) (hm : m ≠ .siddur) :
    _user_targets base daily siddur_pref m = (base m).map (fun mins =>
      max 1 (roundHalfEven (mins * remainingMinutes base daily siddur_pref) (nsTotal base))) := by
  rw [user_targets_of_override base daily siddur_pref h]
  cases m <;> first | rfl | exact absurd rfl hm

lemma nsTotal_pos (base : Targets) : 0 < nsTotal base := by
  unfold nsTotal
  split <;> omega

lemma roundHalfEven_zero_num (den : Nat) (hden : 0 < den) : roundHalfEven 0 den = 0 := by
  unfold roundHalfEven
  simp [Nat.zero_mod, Nat.zero_div, hden]

lemma nsTotalRaw_eq_sum (base : Targets) :
    nsTotalRaw base = ∑ m ∈ Finset.univ.erase Mode.siddur, (base m).getD 0 := by
  rw [show (Finset.univ.erase Mode.siddur : Finset Mode)
      = ({Mode.consonants, Mode.letters, Mode.vowelfire, Mode.words, Mode.phrases,
          Mode.prayer} : Finset Mode) by decide]
  simp +decide [Finset.sum_insert, Finset.mem_insert, nsTotalRaw]
  omega

/-- C1: with at least one override set, `remaining` is
`max(0, daily_minutes - anchor_minutes)` when `daily_minutes > 0` and the
non-anchor nominal total (treated as 1 when zero) otherwise; every
non-anchor mode present in the nominal dict gets
`max(1, round(nominal / non_anchor_total * remaining))`, the anchor mode
gets `anchor_minutes` and is included only when positive; on the nominal
dict `{siddur:15, words:10, phrases:10, prayer:10}` with
`daily_minutes = 20`, `siddur_minutes = 0` the output is
`{siddur:15, words:2, phrases:2, prayer:2}`. -/
theorem user_targets_formula (base : Targets) (daily siddur_pref : Nat)
    (h : ¬(daily = 0 ∧ siddur_pref = 0)) :
    (0 < daily →
      remainingMinutes base daily siddur_pref = daily - anchorMinutes base siddur_pref) ∧
    (daily = 0 → remainingMinutes base daily siddur_pref = nsTotal base) ∧
    (nsTotal base =
      if (∑ m ∈ Finset.univ.erase Mode.siddur, (base m).getD 0) = 0 then 1
      else ∑ m ∈ Finset.univ.erase Mode.siddur, (base m).getD 0) ∧
    (∀ m : Mode, m ≠ .siddur →
      _user_targets base daily siddur_pref m = (base m).map (fun v =>
        max 1 (roundHalfEven (v * remainingMinutes base daily siddur_pref) (nsTotal base)))) ∧
    (_user_targets base daily siddur_pref .siddur =
      if 0 < anchorMinutes base siddur_pref then some (anchorMinutes base siddur_pref)
      else none) ∧
    _user_targets exNominal 20 0 = exCompressed := by
  refine ⟨?_, ?_, ?_, ?_, ?_, by decide⟩
  · intro hd
    unfold remainingMinutes
    rw [if_pos hd]
  · intro hd
    unfold remainingMinutes
    rw [if_neg (by omega)]
  · rw [← nsTotalRaw_eq_sum]
    rfl
  · exact user_targets_nonanchor base daily siddur_pref h
  · exact user_targets_siddur base daily siddur_pref h

/-- C5: when both `daily_minutes` and `siddur_minutes` are zero, the
Redistributor returns the nominal targets unchanged — same modes, same
values. -/
theorem user_targets_identity (base : Targets) : _user_targets base 0 0 = base := by
  unfold _user_targets
  exact if_pos ⟨rfl, rfl⟩

/-- C2: whenever at least one override is set, the anchor entry of the
Redistributor's output equals `max(siddur_minutes, nominal anchor value)`,
hence is at least the user's floor and at least the plan's nominal anchor
value. -/
theorem user_targets_anchor (base : Targets) (daily siddur_pref : Nat)
    (h : ¬(daily = 0 ∧ siddur_pref = 0)) :
    ((_user_targets base daily siddur_pref) .siddur).getD 0
        = max siddur_pref ((base .siddur).getD 0) ∧
    siddur_pref ≤ ((_user_targets base daily siddur_pref) .siddur).getD 0 ∧
    (base .siddur).getD 0 ≤ ((_user_targets base daily siddur_pref) .siddur).getD 0 := by
  have hs := user_targets_siddur base daily siddur_pref h
  have heq : ((_user_targets base daily siddur_pref) .siddur).getD 0
      = max siddur_pref ((base .siddur).getD 0) := by
    rw [hs]
    by_cases h0 : 0 < anchorMinutes base siddur_pref
    · rw [if_pos h0]; rfl
    · rw [if_neg h0]
      exact (Nat.eq_zero_of_not_pos h0).symm
  exact ⟨heq, heq ▸ le_max_left _ _, heq ▸ le_max_right _ _⟩

/-- C9: on contradictory input `siddur_minutes > daily_minutes > 0` the
Redistributor does not re-validate: it returns normally (being a total
function), `remaining` computes to 0, and the anchor mode silently takes
`anchor_minutes`, at least the entire daily budget. -/
theorem user_targets_contradictory (base : Targets) (daily siddur_pref : Nat)
    (hd : 0 < daily) (hcontra : daily < siddur_pref) :
    remainingMinutes base daily siddur_pref = 0 ∧
    _user_targets base daily siddur_pref .siddur = some (anchorMinutes base siddur_pref) ∧
    daily ≤ ((_user_targets base daily siddur_pref) .siddur).getD 0 := by
  have h : ¬(daily = 0 ∧ siddur_pref = 0) := by omega
  have hanc : daily ≤ anchorMinutes base siddur_pref :=
    le_trans (le_of_lt hcontra) (le_max_left _ _)
  have h0 : 0 < anchorMinutes base siddur_pref := lt_of_lt_of_le hd hanc
  refine ⟨?_, ?_, ?_⟩
  · unfold remainingMinutes
    rw [if_pos hd]
    omega
  · rw [user_targets_siddur base daily siddur_pref h, if_pos h0]
  · rw [user_targets_siddur base daily siddur_pref h, if_pos h0]
    exact hanc

/-- C10: whenever an override is set and the daily budget is exhausted by
the anchor (`daily_minutes > 0` and `daily_minutes ≤ anchor_minutes`, so
`remaining = 0`), every non-anchor mode present in the nominal dict still
gets exactly 1 minute, and the output total strictly exceeds
`daily_minutes` as soon as some non-anchor mode is present. -/
theorem user_targets_floor_exhausted (base : Targets) (daily siddur_pref : Nat)
    (hd : 0 < daily) (hle : daily ≤ anchorMinutes base siddur_pref) :
    remainingMinutes base daily siddur_pref = 0 ∧
    (∀ m : Mode, m ≠ .siddur → base m ≠ none →
      _user_targets base daily siddur_pref m = some 1) ∧
    ((∃ m : Mode, m ≠ .siddur ∧ base m ≠ none) →
      daily < targetsTotal (_user_targets base daily siddur_pref)) := by
  have h : ¬(daily = 0 ∧ siddur_pref = 0) := by omega
  have hrem : remainingMinutes base daily siddur_pref = 0 := by
    unfold remainingMinutes
    rw [if_pos hd]
    omega
  have h0 : 0 < anchorMinutes base siddur_pref := lt_of_lt_of_le hd hle
  have hanch : _user_targets base daily siddur_pref .siddur
      = some (anchorMinutes base siddur_pref) := by
    rw [user_targets_siddur base daily siddur_pref h, if_pos h0]
  have hone : ∀ m : Mode, m ≠ .siddur → base m ≠ none →
      _user_targets base daily siddur_pref m = some 1 := by
    intro m hm hbm
    rw [user_targets_nonanchor base daily siddur_pref h m hm, hrem]
    obtain ⟨v, hv⟩ := Option.ne_none_iff_exists'.mp hbm
    rw [hv, Option.map_some']
    rw [Nat.mul_zero, roundHalfEven_zero_num (nsTotal base) (nsTotal_pos base)]
    rfl
  refine ⟨hrem, hone, ?_⟩
  rintro ⟨m, hm, hbm⟩
  have h1 := hone m hm hbm
  unfold targetsTotal
  cases m <;>
    first
      | exact absurd rfl hm
      | (rw [h1, hanch]
         simp only [Option.getD_some]
         omega)

/-- C6 counterexample: the source parser anchors at position 0 and does
not trim, so on the annotation " 10 min" (leading space) the code returns
no value while the spec's trimming parser returns 10. -/
theorem duration_parser_not_trimming :
    durationParserSpec " 10 min" = some 10 ∧ matchLeadingInt " 10 min" = none := by
  constructor <;> decide

/-- C6 amended: the Duration Parser returns the leading decimal integer
when the text itself starts with a run of digits (no trimming is
performed), and no value otherwise; in particular "10 min" yields 10,
"10–15 min" yields 10, "20 min · 3×/week" yields 20 and
"no numbers here" yields no value. -/
theorem duration_parser_leading (s : String) :
    matchLeadingInt "10 min" = some 10 ∧
    matchLeadingInt "10–15 min" = some 10 ∧
    matchLeadingInt "20 min · 3×/week" = some 20 ∧
    matchLeadingInt "no numbers here" = none ∧
    ((∀ c, s.toList.head? = some c → ¬ c.isDigit) → matchLeadingInt s = none) ∧
    (∀ c, s.toList.head? = some c → c.isDigit →
      matchLeadingInt s = some (natFromDigits (s.toList.takeWhile Char.isDigit))) := by
  refine ⟨by decide, by decide, by decide, by decide, ?_, ?_⟩
  · intro h
    have hds : s.toList.takeWhile Char.isDigit = [] := by
      cases hl : s.toList with
      | nil => rfl
      | cons c cs =>
        have hc := h c (by rw [hl]; rfl)
        simp only [Bool.not_eq_true] at hc
        simp [List.takeWhile_cons, hc]
    show (if (s.toList.takeWhile Char.isDigit).isEmpty then none
          else some (natFromDigits (s.toList.takeWhile Char.isDigit))) = none
    rw [hds]
    rfl
  · intro c hc hcd
    have hne : s.toList.takeWhile Char.isDigit ≠ [] := by
      cases hl : s.toList with
      | nil =>
        rw [hl] at hc
        exact absurd hc (by simp)
      | cons c' cs =>
        rw [hl] at hc
        have hcc : c' = c := Option.some.inj hc
        subst hcc
        simp [List.takeWhile_cons, hcd]
    show (if (s.toList.takeWhile Char.isDigit).isEmpty then none
          else some (natFromDigits (s.toList.takeWhile Char.isDigit)))
        = some (natFromDigits (s.toList.takeWhile Char.isDigit))
    rw [if_neg]
    intro hcon
    exact hne (by simpa using hcon)

theorem duration_parser_leading_witness :
    matchLeadingInt "abc" = none ∧ matchLeadingInt "7x" = some 7 := by
  constructor
  · refine (duration_parser_leading "abc").2.2.2.2.1 ?_
    intro c hc
    have h' : ("abc".toList.head?) = some 'a' := rfl
    rw [h'] at hc
    have hca : c = 'a' := (Option.some.inj hc).symm
    rw [hca]
    decide
  · have h := (duration_parser_leading "7x").2.2.2.2.2 '7' rfl (by decide)
    rw [h]
    decide

theorem user_targets_formula_witness : _user_targets exNominal 20 0 = exCompressed :=
  (user_targets_formula exNominal 20 0 (by decide)).2.2.2.2.2

theorem user_targets_anchor_witness :
    ((_user_targets exNominal 0 30) .siddur).getD 0 = max 30 ((exNominal .siddur).getD 0) ∧
    30 ≤ ((_user_targets exNominal 0 30) .siddur).getD 0 ∧
    (exNominal .siddur).getD 0 ≤ ((_user_targets exNominal 0 30) .siddur).getD 0 :=
  user_targets_anchor exNominal 0 30 (by decide)

theorem user_targets_contradictory_witness :
    remainingMinutes exNominal 10 12 = 0 ∧
    _user_targets exNominal 10 12 .siddur = some (anchorMinutes exNominal 12) ∧
    10 ≤ ((_user_targets exNominal 10 12) .siddur).getD 0 :=
  user_targets_contradictory exNominal 10 12 (by decide) (by decide)

theorem user_targets_floor_exhausted_witness :
    remainingMinutes exNominal 10 0 = 0 ∧
    10 < targetsTotal (_user_targets exNominal 10 0) := by
  have h := user_targets_floor_exhausted exNominal 10 0 (by decide) (by decide)
  exact ⟨h.1, h.2.2 ⟨Mode.words, by decide, by decide⟩⟩

theorem current_week_formula_witness :
    (get_current_week_info 8 13 [⟨0, 5⟩]).1
        = min ((8 : Nat) : Int) (((13 : Int) - 0).fdiv 7 + 1) ∧
    (get_current_week_info 8 ((0 : Int) + 6) [⟨0, 5⟩]).1 = 1 ∧
    (get_current_week_info 8 ((0 : Int) + 7) [⟨0, 5⟩]).1 = 2 ∧
    (get_current_week_info 8 60 [⟨0, 5⟩]).1 = 8 := by
  have h := current_week_formula 8 13 [⟨0, 5⟩] ⟨0, 5⟩ (by decide) (by decide)
  exact ⟨h.1, h.2.1 8 0 (by decide), h.2.2.1 8 0 (by decide), h.2.2.2 8 0 60 (by decide)⟩

theorem week_index_in_range_witness :
    1 ≤ (get_current_week_info 8 10 [⟨0, 5⟩]).1 ∧
    (get_current_week_info 8 10 [⟨0, 5⟩]).1 ≤ ((8 : Nat) : Int) :=
  (week_index_in_range 8 10 [⟨0, 5⟩] (Or.inl rfl) (by decide)).1

theorem history_aggregate_dedup_witness :
    (get_current_week_info 8 0 [⟨0, 10⟩, ⟨0, 15⟩]).2.2 1 = some (1, 25) :=
  (history_aggregate_dedup 8 0 [⟨0, 10⟩, ⟨0, 15⟩] ⟨0, 10⟩ (by decide) (by decide)).2

theorem plan_targets_perm_witness :
    _plan_targets [⟨"10 min", "Word Reading"⟩, ⟨"5 min", "Phrase Flow"⟩]
      = _plan_targets [⟨"5 min", "Phrase Flow"⟩, ⟨"10 min", "Word Reading"⟩] :=
  (plan_targets_perm
    [⟨"10 min", "Word Reading"⟩, ⟨"5 min", "Phrase Flow"⟩]
    [⟨"5 min", "Phrase Flow"⟩, ⟨"10 min", "Word Reading"⟩] (by decide)).1
